import Mathlib

/-!
Verification of the fortune engine in `fortudon.py` (index-building and
weighted-random-selection core).

The Python source is shallowly embedded: text is modelled as `List Char`
(a corpus file is its list of lines, each line carrying its trailing
newline, as produced by Python text-file iteration); byte positions are
accumulated with `Char.utf8Size`, matching `len(line.encode('utf8'))`;
Python `int`/`float` arithmetic is modelled with `ℤ`/`ℚ`; functions that
can raise (`ZeroDivisionError`, `sys.exit`) return `Except`.
-/

namespace Fortudon

/-- UTF-8 byte length of a character list: models `len(s.encode('utf8'))`. -/
def byteLen (cs : List Char) : ℕ := (cs.map Char.utf8Size).sum

/-- The record-delimiter line `"%\n"` of the fortune file format. -/
def delimiterLine : List Char := ['%', '\n']

/-- State-passing embedding of the generator loop of `read_fortunes`
(`fortudon.py` lines 396-422).  `acc` is `fortune_lines`, `start` is the
`start` variable (`-1` sentinel included), `pos` the running byte position.
Note two faithfully reproduced quirks of the source: a yielded non-final
record carries `len(fortune)` (a character count), while the final record
carries `pos - start` (a byte count); and the `continue` that skips a
leading delimiter line bypasses the `pos` update. -/
def rf_go (acc : List (List Char)) (start : ℤ) (pos : ℕ) :
    List (List Char) → List (ℤ × ℤ × List Char)
  | [] =>
    if acc.flatten = [] then [] else [(start, (pos : ℤ) - start, acc.flatten)]
  | line :: rest =>
    if line = delimiterLine then
      if pos = 0 then rf_go acc start pos rest
      else if acc.flatten = [] then rf_go [] (-1) (pos + byteLen line) rest
      else (start, (acc.flatten.length : ℤ), acc.flatten) ::
        rf_go [] (-1) (pos + byteLen line) rest
    else
      rf_go (acc ++ [line]) (if start = -1 then (pos : ℤ) else start)
        (pos + byteLen line) rest

/-- Embedding of `read_fortunes` (lines 396-422): the input stream is given
as its list of lines (each including its trailing newline, as Python file
iteration yields them); the result is the list of yielded
`(start, length, fortune)` triples. -/
def read_fortunes (lines : List (List Char)) : List (ℤ × ℤ × List Char) :=
  rf_go [] (-1) 0 lines

/-- Drop the characters occupying the first `n` bytes of a character list:
models seeking a UTF-8 text stream to byte offset `n`. -/
def dropBytes : List Char → ℕ → List Char
  | cs, 0 => cs
  | [], _ => []
  | c :: cs, n => dropBytes cs (n - c.utf8Size)

/-- Embedding of the text-extraction step of `get_random_fortune`
(lines 109-116): `open(fortune_file, 'r', encoding='utf8')`,
`ffh.seek(start)`, `ffh.read(length)` — a text-mode read, which seeks to
the byte offset `start` and then reads `length` *characters*. -/
def extract_chars (s : List Char) (start len : ℤ) : List Char :=
  (dropBytes s start.toNat).take len.toNat

/-- ROT13 on a single character code, as the Python `rot13` codec acts on
each character: rotate `a`-`z` (97-122) and `A`-`Z` (65-90) by 13 places,
leave everything else unchanged. -/
def rot13_nat (n : ℕ) : ℕ :=
  if 97 ≤ n ∧ n ≤ 122 then (n - 97 + 13) % 26 + 97
  else if 65 ≤ n ∧ n ≤ 90 then (n - 65 + 13) % 26 + 65
  else n

/-- ROT13 on one character. -/
def rot13_char (c : Char) : Char := Char.ofNat (rot13_nat c.toNat)

/-- Embedding of `encode(s, 'rot13')` (line 118). -/
def rot13 (s : List Char) : List Char := s.map rot13_char

/-- Embedding of `fortune_file.endswith('-o')` (line 117): the offensive
file-name tag. -/
def endsInO (s : List Char) : Bool := ['-', 'o'].isSuffixOf s

/-- Embedding of the return step of `get_random_fortune` (lines 117-120):
apply ROT13 exactly once iff the chosen file name ends in `-o`. -/
def grf_finish (fortune_file fortunecookie : List Char) : List Char :=
  if endsInO fortune_file then rot13 fortunecookie else fortunecookie

/-- Python 3 `round` on an exact rational: round half to even.  (Python
floats are modelled by exact rationals throughout.) -/
def pyRound (q : ℚ) : ℤ :=
  if q - ⌊q⌋ < 1 / 2 then ⌊q⌋
  else if 1 / 2 < q - ⌊q⌋ then ⌊q⌋ + 1
  else if ⌊q⌋ % 2 = 0 then ⌊q⌋ else ⌊q⌋ + 1

/-- Second loop of `adjust_weights_with_percentages` (lines 139-148), with
the three sums already computed.  The free-weight branch divides by
`float(100 * sum_of_free_weights)`; when that divisor is zero Python
raises `ZeroDivisionError`, modelled as `Except.error`. -/
def adjust_go (S F : ℕ) (P : ℚ) : List (ℕ × Option ℚ) → Except String (List ℤ)
  | [] => .ok []
  | (weight, none) :: rest =>
    if F = 0 then .error "float division by zero"
    else
      match adjust_go S F P rest with
      | .error e => .error e
      | .ok rs =>
        .ok (pyRound (((weight : ℚ) * (100 - P) * (S : ℚ)) / (100 * (F : ℚ))) :: rs)
  | (weight, some percentage) :: rest =>
    match adjust_go S F P rest with
    | .error e => .error e
    | .ok rs => .ok (pyRound ((percentage * (S : ℚ)) / 100) :: rs)

/-- Embedding of `adjust_weights_with_percentages` (lines 122-149).  The
first `for` loop over `zip(weights, percentages)` computes
`sum_of_weights`, `sum_of_free_weights` and `sum_of_percentages`; the
second loop builds the result list. -/
def adjust_weights_with_percentages (weights : List ℕ)
    (percentages : List (Option ℚ)) : Except String (List ℤ) :=
  let pairs := weights.zip percentages
  let sum_of_weights := (pairs.map Prod.fst).sum
  let sum_of_free_weights := ((pairs.filter fun wp => wp.2.isNone).map Prod.fst).sum
  let sum_of_percentages := ((pairs.map Prod.snd).filterMap id).sum
  adjust_go sum_of_weights sum_of_free_weights sum_of_percentages pairs

/-- The spec's `totalRawWeight`: sum of all raw weights. -/
def totalRawWeight (weights : List ℕ) : ℕ := weights.sum

/-- The spec's `sumOfSetPercentages`: sum of the set percentage entries. -/
def sumOfSetPercentages (percentages : List (Option ℚ)) : ℚ :=
  (percentages.filterMap id).sum

/-- The spec's `sumOfRawWeightsOfUnsetFiles`: sum of the raw weights at the
unset-percentage positions. -/
def sumOfRawWeightsOfUnsetFiles (weights : List ℕ)
    (percentages : List (Option ℚ)) : ℕ :=
  (((weights.zip percentages).filter fun wp => wp.2.isNone).map Prod.fst).sum

/-- Position-wise final weight exactly as the spec states it:
`round(percentage * totalRawWeight / 100)` for a set entry, and
`round(rawWeight * totalRawWeight * (100 - sumOfSetPercentages) /
(100 * sumOfRawWeightsOfUnsetFiles))` for an unset one. -/
def specWeight (S F : ℕ) (P : ℚ) (wp : ℕ × Option ℚ) : ℤ :=
  match wp.2 with
  | some percentage => pyRound ((percentage * (S : ℚ)) / 100)
  | none => pyRound (((wp.1 : ℚ) * (S : ℚ) * (100 - P)) / (100 * (F : ℚ)))

/-- Embedding of `check_percentages` (lines 217-261).  `sys.exit(2)` on a
percentage sum above 100 is modelled as `Except.error`; so is the
`ZeroDivisionError` of `100.0 / percentage_sum` when every entry is set
and the sum is zero (the list comprehension never divides when the list
is empty). -/
def check_percentages (percentages : List (Option ℚ)) :
    Except String (List (Option ℚ)) :=
  let given_values := (percentages.filterMap id).map abs
  let percentage_sum := given_values.sum
  if 100 < percentage_sum then
    .error "ERROR: Percentages add up to more than a hundred!"
  else if percentages.length = given_values.length then
    match percentages with
    | [] => .ok []
    | _ :: _ =>
      if percentage_sum = 0 then .error "float division by zero"
      else .ok (percentages.map fun p => p.map fun v => |v * (100 / percentage_sum)|)
  else
    .ok (percentages.map (Option.map abs))

/-- Embedding of `re.compile('([0-9]{1,2})%').match(path)` (lines 176,
181): `re.match` anchors at the start only, and the quantifier `{1,2}`
backtracks, so the match succeeds iff the entry begins with one or two
digits followed by `%`; it returns `group(1)`, the matched digits. -/
def percentage_match (s : List Char) : Option (List Char) :=
  match s with
  | c0 :: c1 :: c2 :: _ =>
    if c0.isDigit ∧ c1.isDigit ∧ c2 = '%' then some [c0, c1]
    else if c0.isDigit ∧ c1 = '%' then some [c0]
    else none
  | [c0, c1] => if c0.isDigit ∧ c1 = '%' then some [c0] else none
  | _ => none

/-- Numeric value of a digit string: `int(s)` / `float(s)` on the matched
percentage digits. -/
def digitsVal (ds : List Char) : ℕ :=
  ds.foldl (fun acc c => 10 * acc + (c.toNat - 48)) 0

/-- Embedding of the helper `xor` (lines 351-353). -/
def xor (bool_a bool_b : Bool) : Bool :=
  (bool_a && !bool_b) || (bool_b && !bool_a)

/-- Loop of `fortune_files_from_paths` (lines 180-214).  The filesystem is
abstracted by two oracles: `isdir` (is the entry a directory) and
`dirIndexFiles` (the `glob(path/"*.p4dat")` result for a directory).
State: accumulated `fortune_files`, `percentages`, and the pending
`percentage` digit string. -/
def ffp_go (isdir : List Char → Bool)
    (dirIndexFiles : List Char → List (List Char)) (offensive : Option Bool) :
    List (List Char) → List (List Char) → List (Option ℚ) →
      Option (List Char) → List (Option ℚ) × List (List Char)
  | [], fortune_files, percentages, _ => (percentages, fortune_files)
  | path :: rest, fortune_files, percentages, percentage =>
    match percentage_match path with
    | some digits =>
      ffp_go isdir dirIndexFiles offensive rest fortune_files percentages
        (some digits)
    | none =>
      if isdir path then
        let stripped := (dirIndexFiles path).map fun f => f.take (f.length - 6)
        let files_in_path :=
          match offensive with
          | none => stripped
          | some off => stripped.filter fun f => !(xor (endsInO f) off)
        let fortune_files2 := fortune_files ++ files_in_path
        let n := fortune_files2.length - percentages.length
        let newPerc : Option ℚ :=
          match percentage with
          | some ds => some ((digitsVal ds : ℚ) / (n : ℚ))
          | none => none
        ffp_go isdir dirIndexFiles offensive rest fortune_files2
          (percentages ++ List.replicate n newPerc) none
      else
        let keep :=
          match offensive with
          | none => true
          | some off => !(xor (endsInO path) off)
        if keep then
          let newPerc : Option ℚ :=
            match percentage with
            | some ds => some ((digitsVal ds : ℚ))
            | none => none
          ffp_go isdir dirIndexFiles offensive rest (fortune_files ++ [path])
            (percentages ++ [newPerc]) none
        else ffp_go isdir dirIndexFiles offensive rest fortune_files percentages none

/-- Embedding of `fortune_files_from_paths` (lines 151-215): run the loop
from the empty state, then pass the percentages through
`check_percentages`. -/
def fortune_files_from_paths (isdir : List Char → Bool)
    (dirIndexFiles : List Char → List (List Char)) (offensive : Option Bool)
    (fortunepaths : List (List Char)) :
    Except String (List (Option ℚ)) × List (List Char) :=
  let pf := ffp_go isdir dirIndexFiles offensive fortunepaths [] [] none
  (check_percentages pf.1, pf.2)

/-- The retry budget (line 58). -/
def ATTEMPTS : ℕ := 10000

/-- The length-bounds rejection test of `get_random_fortune` (lines
102-103): `length < min_length or (max_length is not None and
length > max_length)`. -/
def rejects (min_length : ℤ) (max_length : Option ℤ) (length : ℤ) : Bool :=
  length < min_length ||
    (match max_length with
     | some m => m < length
     | none => false)

/-- Embedding of the rejection-sampling loop of `get_random_fortune`
(lines 97-120).  Randomness is abstracted: `draw i` is the
`(start, length)` record produced by the `i`-th iteration's file/record
draw; `extractF` is the accepted-record extraction.  Returns the result
string together with the total number of draws made.  The counter logic
is verbatim: a rejection increments `attempt`, and the loop gives up
(returning the empty string) once `attempt > ATTEMPTS`. -/
def grf_go (draw : ℕ → ℤ × ℤ) (extractF : ℤ × ℤ → List Char) (min_length : ℤ)
    (max_length : Option ℤ) (i attempt : ℕ) : List Char × ℕ :=
  let r := draw i
  if rejects min_length max_length r.2 then
    if h : ATTEMPTS < attempt + 1 then ([], i + 1)
    else grf_go draw extractF min_length max_length (i + 1) (attempt + 1)
  else (extractF r, i + 1)
termination_by ATTEMPTS + 1 - attempt
decreasing_by simp_wf; omega

/-- Embedding of the scan loop of `rselect_fortune_file` (lines 387-394):
running cumulative total, index `i`, first position whose cumulative
weight reaches `rand_limit` is returned; falling off the end is the
`raise` branch, modelled as `none`. -/
def rselect_go {α : Type} (fortune_files : List α) (rand_limit : ℕ) :
    List ℕ → ℕ → ℕ → Option α
  | [], _, _ => none
  | weight :: ws, total, i =>
    if rand_limit ≤ total + weight then fortune_files[i]?
    else rselect_go fortune_files rand_limit ws (total + weight) (i + 1)

/-- Embedding of the weighted branch of `rselect_fortune_file` (lines
381-394), with the drawn value `rand_limit = secrets.randbelow(total) + 1`
abstracted as a parameter. -/
def rselect_fortune_file {α : Type} (fortune_files : List α)
    (weights : List ℕ) (rand_limit : ℕ) : Option α :=
  rselect_go fortune_files rand_limit weights 0 0

example :
    read_fortunes [['A', '\n'], ['%', '\n'], ['B', '\n'], ['C', '\n']] =
      [(0, 2, ['A', '\n']), (4, 4, ['B', '\n', 'C', '\n'])] := by decide

example :
    read_fortunes [['é', '\n'], ['%', '\n'], ['B', '\n']] =
      [(0, 2, ['é', '\n']), (5, 2, ['B', '\n'])] := by decide

example : read_fortunes [['%', '\n'], ['A', '\n']] = [(0, 2, ['A', '\n'])] := by
  decide

/-- Take the characters occupying the first `n` bytes of a character list:
the byte-reading extraction as claim C6 words it ("reads exactly `length`
bytes" of the UTF-8 stream, then decodes).  A character is included only
when it fits whole in the remaining byte budget. -/
def takeBytes : List Char → ℕ → List Char
  | _, 0 => []
  | [], _ => []
  | c :: cs, n => if c.utf8Size ≤ n then c :: takeBytes cs (n - c.utf8Size) else []

/-- Extraction as described by the spec sentence of C6: seek to the byte
offset and read exactly `length` bytes. -/
def extract_bytes (s : List Char) (start len : ℤ) : List Char :=
  takeBytes (dropBytes s start.toNat) len.toNat

/-- Anchored pattern of the spec sentence of C7: the entry as a whole
matches `^[0-9]{1,2}%$`. -/
def anchored_percentage_spec (s : List Char) : Bool :=
  match s with
  | [c0, p] => c0.isDigit && (p == '%')
  | [c0, c1, p] => c0.isDigit && c1.isDigit && (p == '%')
  | _ => false

/-! ### Helper lemmas -/

theorem char_toNat_ofNat {n : ℕ} (h : n.isValidChar) :
    (Char.ofNat n).toNat = n := by
  simp [Char.ofNat, h, Char.ofNatAux, Char.toNat, UInt32.toNat,
    BitVec.toNat_ofNatLt]

theorem rot13_nat_invol (n : ℕ) : rot13_nat (rot13_nat n) = n := by
  simp only [rot13_nat]
  split_ifs <;> omega

theorem rot13_nat_valid {n : ℕ} (h : n.isValidChar) :
    (rot13_nat n).isValidChar := by
  simp only [rot13_nat]
  split_ifs with h1 h2
  · exact Or.inl (by omega)
  · exact Or.inl (by omega)
  · exact h

theorem rot13_char_invol (c : Char) : rot13_char (rot13_char c) = c := by
  have hv : c.toNat.isValidChar := c.valid
  simp only [rot13_char]
  rw [char_toNat_ofNat (rot13_nat_valid hv), rot13_nat_invol,
    Char.ofNat_toNat]

theorem rot13_invol (s : List Char) : rot13 (rot13 s) = s := by
  simp [rot13, List.map_map, Function.comp_def, rot13_char_invol]

theorem grf_go_all_reject (draw : ℕ → ℤ × ℤ) (extractF : ℤ × ℤ → List Char)
    (min_length : ℤ) (max_length : Option ℤ)
    (hrej : ∀ i, rejects min_length max_length (draw i).2 = true) :
    ∀ k i attempt, attempt + k = ATTEMPTS →
      grf_go draw extractF min_length max_length i attempt = ([], i + k + 1) := by
  intro k
  induction k with
  | zero =>
    intro i attempt hk
    rw [grf_go]
    simp only [hrej i, if_true]
    rw [dif_pos (by omega)]
  | succ k ih =>
    intro i attempt hk
    rw [grf_go]
    simp only [hrej i, if_true]
    rw [dif_neg (by omega)]
    rw [ih (i + 1) (attempt + 1) (by omega)]
    have : i + 1 + k + 1 = i + (k + 1) + 1 := by omega
    rw [this]

theorem adjust_go_isOk (S F : ℕ) (P : ℚ) :
    ∀ pairs : List (ℕ × Option ℚ),
      (∀ wp ∈ pairs, wp.2 = none → F ≠ 0) →
      (adjust_go S F P pairs).isOk = true := by
  intro pairs
  induction pairs with
  | nil => intro _; rfl
  | cons wp rest ih =>
    intro h
    obtain ⟨w, p⟩ := wp
    match p with
    | none =>
      have hF : F ≠ 0 := h (w, none) (by simp) rfl
      rw [adjust_go, if_neg hF]
      have := ih fun wp hm hn => h wp (List.mem_cons_of_mem _ hm) hn
      revert this
      match adjust_go S F P rest with
      | .error e => intro h2; exact absurd h2 (by simp [Except.isOk, Except.toBool])
      | .ok rs => intro _; rfl
    | some q =>
      rw [adjust_go]
      have := ih fun wp hm hn => h wp (List.mem_cons_of_mem _ hm) hn
      revert this
      match adjust_go S F P rest with
      | .error e => intro h2; exact absurd h2 (by simp [Except.isOk, Except.toBool])
      | .ok rs => intro _; rfl

theorem adjust_go_err (S F : ℕ) (P : ℚ) :
    ∀ pairs : List (ℕ × Option ℚ), F = 0 →
      (∃ wp ∈ pairs, wp.2 = none) →
      adjust_go S F P pairs = .error "float division by zero" := by
  intro pairs
  induction pairs with
  | nil => intro _ h; simp at h
  | cons wp rest ih =>
    intro hF h
    obtain ⟨w, p⟩ := wp
    match p with
    | none => rw [adjust_go, if_pos hF]
    | some q =>
      have htail : ∃ wp ∈ rest, wp.2 = none := by
        obtain ⟨wp', hm, hn⟩ := h
        rcases List.mem_cons.mp hm with heq | hm'
        · subst heq; simp at hn
        · exact ⟨wp', hm', hn⟩
      rw [adjust_go, ih hF htail]

theorem adjust_go_eq_map (S F : ℕ) (P : ℚ) :
    ∀ pairs : List (ℕ × Option ℚ),
      (∀ wp ∈ pairs, wp.2 = none → F ≠ 0) →
      adjust_go S F P pairs = .ok (pairs.map (specWeight S F P)) := by
  intro pairs
  induction pairs with
  | nil => intro _; rfl
  | cons wp rest ih =>
    intro h
    have htail := ih fun wp hm hn => h wp (List.mem_cons_of_mem _ hm) hn
    obtain ⟨w, p⟩ := wp
    match p with
    | none =>
      have hF : F ≠ 0 := h (w, none) (by simp) rfl
      rw [adjust_go, if_neg hF, htail]
      simp only [List.map_cons, specWeight]
      have harg : ((w : ℚ) * (100 - P) * (S : ℚ)) / (100 * (F : ℚ)) =
          ((w : ℚ) * (S : ℚ) * (100 - P)) / (100 * (F : ℚ)) := by ring_nf
      rw [harg]
    | some q =>
      rw [adjust_go, htail]
      simp only [List.map_cons, specWeight]

theorem rselect_go_mem {α : Type} (files : List α) (r : ℕ) :
    ∀ (ws : List ℕ) (total i : ℕ),
      i + ws.length = files.length → total < r → r ≤ total + ws.sum →
      ∃ a, rselect_go files r ws total i = some a ∧ a ∈ files := by
  intro ws
  induction ws with
  | nil =>
    intro total i _ hlt hle
    simp only [List.sum_nil, Nat.add_zero] at hle
    omega
  | cons w ws ih =>
    intro total i hlen hlt hle
    rw [rselect_go]
    by_cases hc : r ≤ total + w
    · rw [if_pos hc]
      have hi : i < files.length := by
        simp only [List.length_cons] at hlen; omega
      exact ⟨files[i], by rw [List.getElem?_eq_getElem hi], List.getElem_mem hi⟩
    · rw [if_neg hc]
      refine ih (total + w) (i + 1) ?_ (by omega) ?_
      · simp only [List.length_cons] at hlen; omega
      · simp only [List.sum_cons] at hle; omega

theorem byteLen_append (xs ys : List Char) :
    byteLen (xs ++ ys) = byteLen xs + byteLen ys := by
  simp [byteLen]

theorem length_le_byteLen (cs : List Char) : cs.length ≤ byteLen cs := by
  induction cs with
  | nil => simp [byteLen]
  | cons c cs ih =>
    have := Char.utf8Size_pos c
    simp only [List.length_cons, byteLen, List.map_cons, List.sum_cons]
    simp only [byteLen] at ih
    omega

theorem byteLen_pos {cs : List Char} (h : cs ≠ []) : 0 < byteLen cs := by
  match cs with
  | [] => exact absurd rfl h
  | c :: cs =>
    have := Char.utf8Size_pos c
    simp only [byteLen, List.map_cons, List.sum_cons]
    omega

theorem dropBytes_append (xs ys : List Char) :
    dropBytes (xs ++ ys) (byteLen xs) = ys := by
  induction xs with
  | nil => simp [byteLen, dropBytes]
  | cons c xs ih =>
    have hpos : 0 < c.utf8Size := Char.utf8Size_pos c
    have hbl : byteLen (c :: xs) = c.utf8Size + byteLen xs := by
      simp [byteLen]
    obtain ⟨m, hm⟩ : ∃ m, c.utf8Size + byteLen xs = m + 1 :=
      ⟨c.utf8Size + byteLen xs - 1, by omega⟩
    rw [hbl, List.cons_append, hm]
    simp only [dropBytes]
    have h2 : m + 1 - c.utf8Size = byteLen xs := by omega
    rw [h2]
    exact ih

theorem rf_go_extract (s : List Char) :
    ∀ (rest acc : List (List Char)) (start : ℤ) (pos : ℕ),
      0 < pos →
      (∃ u, s = u ++ rest.flatten ∧ byteLen u = pos) →
      ((acc = [] ∧ start = -1) ∨
        (∃ v, start = (byteLen v : ℤ) ∧
          s = v ++ (acc.flatten ++ rest.flatten) ∧
          pos = byteLen v + byteLen acc.flatten)) →
      ∀ t ∈ rf_go acc start pos rest,
        extract_chars s t.1 t.2.1 = t.2.2 := by
  intro rest
  induction rest with
  | nil =>
    intro acc start pos hpos hA hB t ht
    simp only [rf_go] at ht
    by_cases hacc : acc.flatten = []
    · rw [if_pos hacc] at ht
      simp at ht
    · rw [if_neg hacc] at ht
      simp only [List.mem_singleton] at ht
      subst ht
      rcases hB with ⟨haccnil, _⟩ | ⟨v, hst, hs, hp⟩
      · exact absurd (by rw [haccnil]; rfl) hacc
      · simp only [List.flatten_nil, List.append_nil] at hs
        simp only [extract_chars, hst, Int.toNat_natCast]
        have hlen : (((pos : ℤ)) - ((byteLen v : ℕ) : ℤ)).toNat =
            byteLen acc.flatten := by omega
        rw [hlen, hs, dropBytes_append]
        exact List.take_of_length_le (length_le_byteLen _)
  | cons line rest ih =>
    intro acc start pos hpos hA hB t ht
    simp only [rf_go] at ht
    obtain ⟨u, hsu, hbu⟩ := hA
    have hA' : ∃ u2, s = u2 ++ rest.flatten ∧ byteLen u2 = pos + byteLen line :=
      ⟨u ++ line, by rw [hsu]; simp [List.flatten_cons],
        by rw [byteLen_append, hbu]⟩
    by_cases hdel : line = delimiterLine
    · rw [if_pos hdel] at ht
      rw [if_neg (by omega : ¬ pos = 0)] at ht
      by_cases hacc : acc.flatten = []
      · rw [if_pos hacc] at ht
        exact ih [] (-1) (pos + byteLen line) (by omega) hA'
          (Or.inl ⟨rfl, rfl⟩) t ht
      · rw [if_neg hacc] at ht
        rcases List.mem_cons.mp ht with hhd | htl
        · subst hhd
          rcases hB with ⟨haccnil, _⟩ | ⟨v, hst, hs, hp⟩
          · exact absurd (by rw [haccnil]; rfl) hacc
          · simp only [extract_chars, hst, Int.toNat_natCast]
            rw [hs, dropBytes_append]
            exact List.take_left _ _
        · exact ih [] (-1) (pos + byteLen line) (by omega) hA'
            (Or.inl ⟨rfl, rfl⟩) t htl
    · rw [if_neg hdel] at ht
      rcases hB with ⟨haccnil, hstart⟩ | ⟨v, hst, hs, hp⟩
      · subst haccnil
        rw [hstart, if_pos rfl] at ht
        refine ih ([] ++ [line]) ((pos : ℕ) : ℤ) (pos + byteLen line)
          (by omega) hA' (Or.inr ⟨u, ?_, ?_, ?_⟩) t ht
        · rw [hbu]
        · rw [hsu]; simp [List.flatten_cons]
        · simp [byteLen_append, hbu]
      · have hne : start ≠ -1 := by rw [hst]; omega
        rw [if_neg hne] at ht
        refine ih (acc ++ [line]) start (pos + byteLen line) (by omega) hA'
          (Or.inr ⟨v, hst, ?_, ?_⟩) t ht
        · rw [hs]; simp [List.flatten_cons, List.flatten_append,
            List.append_assoc]
        · rw [hp]; simp [List.flatten_append, byteLen_append]
          omega

/-! ### Claim theorems -/

/-- C1: the claim states every yielded record's `length` equals the UTF-8
byte length of its text.  The code (line 411) yields `len(fortune)` — a
character count — for every record that is followed by a delimiter line,
contradicting the function's own docstring ("length is the number of
bytes of the fortune", lines 398-399).  On the stream `"é\n%\nB\n"` the
first record `"é\n"` is yielded with length 2, but its UTF-8 byte length
is 3.  (Only the final record, line 422, carries `pos - start`, a byte
count.) -/
theorem c1_nonfinal_record_length_is_chars_not_bytes :
    read_fortunes [['é', '\n'], ['%', '\n'], ['B', '\n']] =
        [(0, 2, ['é', '\n']), (5, 2, ['B', '\n'])] ∧
      byteLen ['é', '\n'] = 3 := by
  constructor
  · decide
  · decide

/-- C2: whenever every drawn record violates the length bounds, the
rejection-sampling loop of `get_random_fortune` terminates (it does not
hang — `grf_go` is a total function) and returns the empty string; but it
does so only after 10,001 rejected draws, not the 10,000 stated by the
claim and by the comment on `ATTEMPTS` (lines 58-59): the counter is
incremented before the `attempt > ATTEMPTS` test, so the test first
succeeds when `attempt = 10001`. -/
theorem c2_all_rejected_returns_empty_after_10001_draws
    (draw : ℕ → ℤ × ℤ) (extractF : ℤ × ℤ → List Char) (min_length : ℤ)
    (max_length : Option ℤ)
    (hrej : ∀ i, rejects min_length max_length (draw i).2 = true) :
    grf_go draw extractF min_length max_length 0 0 = ([], 10001) := by
  have := grf_go_all_reject draw extractF min_length max_length hrej
    ATTEMPTS 0 0 rfl
  rw [this]
  norm_num [ATTEMPTS]

/-- C2 witness: with bounds `minLength = maxLength = 1000` and every draw
producing a record of length 2, the loop returns the empty string after
exactly 10,001 draws. -/
theorem c2_witness :
    grf_go (fun _ => ((0 : ℤ), (2 : ℤ))) (fun _ => []) 1000 (some 1000) 0 0 =
      ([], 10001) :=
  c2_all_rejected_returns_empty_after_10001_draws _ _ _ _ (fun _ => rfl)

/-- C3 counterexample: with one file, raw weight 0 and no set percentage,
the free-share divisor `100 * sum_of_free_weights` is zero and
`adjust_weights_with_percentages` raises `ZeroDivisionError` (modelled as
`Except.error`) instead of returning a zero weight for that share. -/
theorem c3_counterexample :
    adjust_weights_with_percentages [0] [none] =
      .error "float division by zero" := rfl

/-- C3 amended: when no unset entry exists the free-share division is
never executed and `adjust_weights_with_percentages` returns normally;
but when an unset entry remains while the unset files' raw weights sum to
zero, a `ZeroDivisionError` escapes — the function crashes rather than
returning zero weight for that share. -/
theorem c3_zero_divisor_behaviour (weights : List ℕ)
    (percentages : List (Option ℚ)) :
    (((weights.zip percentages).filter fun wp => wp.2.isNone) = [] →
      (adjust_weights_with_percentages weights percentages).isOk = true) ∧
    (sumOfRawWeightsOfUnsetFiles weights percentages = 0 →
      (∃ wp ∈ weights.zip percentages, wp.2 = none) →
      adjust_weights_with_percentages weights percentages =
        .error "float division by zero") := by
  constructor
  · intro hnone
    apply adjust_go_isOk
    intro wp hm hn
    exfalso
    have : wp ∈ (weights.zip percentages).filter fun wp => wp.2.isNone := by
      rw [List.mem_filter]
      exact ⟨hm, by rw [hn]; rfl⟩
    rw [hnone] at this
    simp at this
  · intro hF hmem
    exact adjust_go_err _ _ _ _ hF hmem

/-- C3 witness: with all percentages set the function returns normally;
with an unset entry of zero raw-weight sum it raises. -/
theorem c3_witness :
    ((adjust_weights_with_percentages [5] [some 100]).isOk = true) ∧
      adjust_weights_with_percentages [0, 3] [none, some 50] =
        .error "float division by zero" :=
  ⟨(c3_zero_divisor_behaviour [5] [some 100]).1 (by decide),
    (c3_zero_divisor_behaviour [0, 3] [none, some 50]).2 (by decide)
      ⟨(0, none), by decide, rfl⟩⟩

/-- C4: for equal-length raw weights and percentages, with a positive
unset raw-weight sum whenever an unset entry exists,
`adjust_weights_with_percentages` returns position by position exactly
the spec's formulas: `round(percentage * totalRawWeight / 100)` for a set
entry and `round(rawWeight * totalRawWeight * (100 - sumOfSetPercentages)
/ (100 * sumOfRawWeightsOfUnsetFiles))` for an unset one (Python `round`:
half to even). -/
theorem c4_adjust_weights_formula (weights : List ℕ)
    (percentages : List (Option ℚ))
    (hlen : weights.length = percentages.length)
    (hfree : (∃ p ∈ percentages, p = none) →
      0 < sumOfRawWeightsOfUnsetFiles weights percentages) :
    adjust_weights_with_percentages weights percentages =
      .ok ((weights.zip percentages).map
        (specWeight (totalRawWeight weights)
          (sumOfRawWeightsOfUnsetFiles weights percentages)
          (sumOfSetPercentages percentages))) := by
  have hS : ((weights.zip percentages).map Prod.fst).sum = weights.sum := by
    rw [List.map_fst_zip _ _ hlen.le]
  have hP : (((weights.zip percentages).map Prod.snd).filterMap id).sum =
      (percentages.filterMap id).sum := by
    rw [List.map_snd_zip _ _ hlen.ge]
  simp only [adjust_weights_with_percentages, hS, hP]
  rw [adjust_go_eq_map]
  · rfl
  · intro wp hm hn
    have hp : wp.2 ∈ percentages := (List.of_mem_zip hm).2
    have : 0 < sumOfRawWeightsOfUnsetFiles weights percentages :=
      hfree ⟨wp.2, hp, hn⟩
    simp only [sumOfRawWeightsOfUnsetFiles] at this
    omega

/-- C4 witness: the spec's own example — raw weights `[10, 10, 10]`,
percentages `[50%, unset, unset]`. -/
theorem c4_witness :
    adjust_weights_with_percentages [10, 10, 10] [some 50, none, none] =
      .ok (([10, 10, 10].zip [some 50, none, none]).map
        (specWeight (totalRawWeight [10, 10, 10])
          (sumOfRawWeightsOfUnsetFiles [10, 10, 10] [some 50, none, none])
          (sumOfSetPercentages [some 50, none, none]))) :=
  c4_adjust_weights_formula _ _ rfl (fun _ => by decide)

/-- C5: the claim states that a delimiter line at byte position 0 is
skipped (true) *and* that the byte accounting still counts the skipped
line so offsets stay correct (false): the `continue` at line 408 bypasses
the `pos` update at line 418, so on the stream `"%\nA\n"` the record
`"A\n"` — whose first byte is at position 2 — is yielded with offset 0,
and extraction at that offset returns the delimiter line instead of the
record. -/
theorem c5_leading_delimiter_bytes_not_counted :
    read_fortunes [['%', '\n'], ['A', '\n']] = [(0, 2, ['A', '\n'])] ∧
      byteLen ['%', '\n'] = 2 ∧
      extract_chars ([['%', '\n'], ['A', '\n']].flatten) 0 2 = ['%', '\n'] := by
  refine ⟨by decide, by decide, by decide⟩

/-- C6 counterexample: on the stream `"Ωx\n%\nY\n"` the first record is
stored as `"Ωx\n"` (4 UTF-8 bytes) but indexed with length 3 (its
character count), so the extraction described by the claim — seek to
offset 0, read exactly 3 bytes, decode — returns `"Ωx"`, not the record's
stored text. -/
theorem c6_counterexample :
    read_fortunes [['Ω', 'x', '\n'], ['%', '\n'], ['Y', '\n']] =
        [(0, 3, ['Ω', 'x', '\n']), (6, 2, ['Y', '\n'])] ∧
      extract_bytes ([['Ω', 'x', '\n'], ['%', '\n'], ['Y', '\n']].flatten)
          0 3 = ['Ω', 'x'] ∧
      (['Ω', 'x'] : List Char) ≠ ['Ω', 'x', '\n'] := by
  refine ⟨by decide, by decide, by decide⟩

/-- C6 amended: `get_random_fortune` opens the corpus file in text mode,
seeks to the record's byte offset and reads exactly `length`
*characters* (not bytes).  For every corpus stream whose lines are
non-empty and whose first line is not the delimiter line (excluding the
separately reported offset bug of C5), this character-read yields exactly
the record's stored text, for every record the parser yields: non-final
records index their character count, and the final record's byte count
can only over-shoot the end of the file. -/
theorem c6_extraction_reads_length_chars (lines : List (List Char))
    (hne : ∀ l ∈ lines, l ≠ [])
    (hhead : lines.head? ≠ some delimiterLine) :
    ∀ t ∈ read_fortunes lines,
      extract_chars lines.flatten t.1 t.2.1 = t.2.2 := by
  cases lines with
  | nil =>
    intro t ht
    simp [read_fortunes, rf_go] at ht
  | cons l0 rest =>
    intro t ht
    have hl0 : l0 ≠ delimiterLine := by
      intro hcon
      exact hhead (by rw [hcon]; rfl)
    have hl0ne : l0 ≠ [] := hne l0 (by simp)
    simp only [read_fortunes, rf_go, if_neg hl0, List.nil_append,
      if_pos rfl, Nat.zero_add] at ht
    exact rf_go_extract ((l0 :: rest).flatten) rest [l0] _ _
      (byteLen_pos hl0ne) ⟨l0, by simp, rfl⟩
      (Or.inr ⟨[], by simp [byteLen], by simp, by simp [byteLen]⟩) t ht

/-- C6 witness: on the stream `"A\n%\nB\n"`, character-extraction at the
first record's `(offset, length)` returns its stored text. -/
theorem c6_witness :
    extract_chars ([['A', '\n'], ['%', '\n'], ['B', '\n']].flatten) 0 2 =
      ['A', '\n'] :=
  c6_extraction_reads_length_chars [['A', '\n'], ['%', '\n'], ['B', '\n']]
    (by decide) (by decide) (0, 2, ['A', '\n']) (by decide)

/-- C7 counterexample: the entry `"12%x"` does not match the claim's
fully anchored pattern `^[0-9]{1,2}%$`, yet `fortune_files_from_paths`
consumes it as a 12% marker: it produces no file entry, and the pending
12 attaches to the next entry `"f"` (the run on
`["12%x", "f", "g"]` returns files `["f", "g"]` with percentages
`[12, unset]`). -/
theorem c7_counterexample :
    percentage_match ['1', '2', '%', 'x'] = some ['1', '2'] ∧
      fortune_files_from_paths (fun _ => false) (fun _ => []) none
          [['1', '2', '%', 'x'], ['f'], ['g']] =
        (.ok [some 12, none], [['f'], ['g']]) ∧
      anchored_percentage_spec ['1', '2', '%', 'x'] = false := by
  refine ⟨by decide, ?_, by decide⟩
  have h1 : ffp_go (fun _ => false) (fun _ => []) none
      [['1', '2', '%', 'x'], ['f'], ['g']] [] [] none =
        ([some 12, none], [['f'], ['g']]) := by decide
  simp only [fortune_files_from_paths, h1]
  rw [Prod.mk.injEq]
  refine ⟨?_, rfl⟩
  simp [check_percentages]
  decide

/-- C7 amended: an entry is treated as a percentage marker (producing no
file entry and setting the pending percentage to the matched digits) iff
the pattern `([0-9]{1,2})%` matches at the *start* of the entry —
`re.match` prefix semantics, trailing characters permitted — i.e. iff its
first character is a digit and its second is `%`, or its first two
characters are digits and its third is `%`; not iff the whole entry
matches `^[0-9]{1,2}%$` as the claim states. -/
theorem c7_marker_iff_prefix_match (s : List Char) :
    ((percentage_match s).isSome = true ↔
      ((∃ c0 r, s = c0 :: '%' :: r ∧ c0.isDigit = true) ∨
        (∃ c0 c1 r, s = c0 :: c1 :: '%' :: r ∧ c0.isDigit = true ∧
          c1.isDigit = true))) ∧
    (∀ (isdir : List Char → Bool)
        (dirIndexFiles : List Char → List (List Char))
        (offensive : Option Bool) (rest fortune_files : List (List Char))
        (percentages : List (Option ℚ)) (pending : Option (List Char))
        (digits : List Char),
      percentage_match s = some digits →
      ffp_go isdir dirIndexFiles offensive (s :: rest) fortune_files
          percentages pending =
        ffp_go isdir dirIndexFiles offensive rest fortune_files percentages
          (some digits)) := by
  constructor
  · cases s with
    | nil => simp [percentage_match]
    | cons c0 t =>
      cases t with
      | nil => simp [percentage_match]
      | cons c1 t2 =>
        cases t2 with
        | nil =>
          simp only [percentage_match]
          split_ifs with hB
          · obtain ⟨h1, h2⟩ := hB
            subst h2
            exact iff_of_true rfl (Or.inl ⟨c0, [], rfl, h1⟩)
          · apply iff_of_false (by simp)
            rintro (⟨c0h, r, heq, hd⟩ | ⟨c0h, c1h, r, heq, hd1, hd2⟩)
            · injection heq with e1 e2
              injection e2 with e2a e2b
              exact hB ⟨by rw [e1]; exact hd, e2a⟩
            · injection heq with e1 e2
              injection e2 with e2a e2b
              simp at e2b
        | cons c2 t3 =>
          simp only [percentage_match]
          split_ifs with hA hB
          · obtain ⟨h1, h2, h3⟩ := hA
            subst h3
            exact iff_of_true rfl (Or.inr ⟨c0, c1, t3, rfl, h1, h2⟩)
          · obtain ⟨h1, h2⟩ := hB
            subst h2
            exact iff_of_true rfl (Or.inl ⟨c0, c2 :: t3, rfl, h1⟩)
          · apply iff_of_false (by simp)
            rintro (⟨c0h, r, heq, hd⟩ | ⟨c0h, c1h, r, heq, hd1, hd2⟩)
            · injection heq with e1 e2
              injection e2 with e2a e2b
              exact hB ⟨by rw [e1]; exact hd, e2a⟩
            · injection heq with e1 e2
              injection e2 with e2a e2b
              injection e2b with e3a e3b
              exact hA ⟨by rw [e1]; exact hd1, by rw [e2a]; exact hd2, e3a⟩
  · intro isdir dirIndexFiles offensive rest fortune_files percentages
      pending digits h
    simp only [ffp_go, h]

/-- C7 witness: the prefix-matching entry `"12%x"` is consumed as a
marker, leaving the file and percentage accumulators untouched and
setting the pending digits. -/
theorem c7_witness :
    ffp_go (fun _ => false) (fun _ => []) none [['1', '2', '%', 'x']] [] []
        none =
      ffp_go (fun _ => false) (fun _ => []) none [] [] []
        (some ['1', '2']) :=
  (c7_marker_iff_prefix_match ['1', '2', '%', 'x']).2 _ _ _ _ _ _ _ _ rfl

/-- C8: whenever the set percentages, taken in absolute value, sum to more
than 100, `check_percentages` — which `fortune_files_from_paths` applies
to the accumulated percentage list before returning, hence before any
selection — fails with the descriptive error (the code prints it and
calls `sys.exit(2)`, a non-zero status, modelled as `Except.error`). -/
theorem c8_percentages_over_100_fatal (percentages : List (Option ℚ))
    (h : 100 < ((percentages.filterMap id).map abs).sum) :
    check_percentages percentages =
      .error "ERROR: Percentages add up to more than a hundred!" := by
  simp only [check_percentages]
  rw [if_pos h]

/-- C8 witness: the spec's example `[150]`. -/
theorem c8_witness :
    check_percentages [some 150] =
      .error "ERROR: Percentages add up to more than a hundred!" :=
  c8_percentages_over_100_fatal [some 150] (by simp <;> decide)

/-- C9: for a file whose name ends in the offensive suffix `-o`,
`get_random_fortune` returns the ROT13 rotation applied exactly once to
the extracted text (lines 117-118), and the rotation is an involution:
applying it twice returns any text unchanged. -/
theorem c9_offensive_rot13_once_and_involution
    (fortune_file fortunecookie : List Char)
    (h : endsInO fortune_file = true) :
    grf_finish fortune_file fortunecookie = rot13 fortunecookie ∧
      ∀ s, rot13 (rot13 s) = s := by
  constructor
  · rw [grf_finish, if_pos h]
  · exact rot13_invol

/-- C9 witness: concrete offensive-tagged file name and cookie. -/
theorem c9_witness :
    grf_finish ['f', '-', 'o'] ['a', 'b'] = rot13 ['a', 'b'] ∧
      ∀ s, rot13 (rot13 s) = s :=
  c9_offensive_rot13_once_and_involution ['f', '-', 'o'] ['a', 'b'] (by decide)

/-- C10: for equal-length files and non-negative integer weights and any
drawn value in `[1, totalWeight]` (the code draws
`secrets.randbelow(total) + 1`), the cumulative scan of
`rselect_fortune_file` returns an element of the file list — the first
position whose cumulative weight reaches the drawn value — and never
falls through to the `raise` branch after the loop. -/
theorem c10_rselect_returns_member {α : Type} (fortune_files : List α)
    (weights : List ℕ) (rand_limit : ℕ)
    (hlen : fortune_files.length = weights.length) (h1 : 1 ≤ rand_limit)
    (h2 : rand_limit ≤ weights.sum) :
    ∃ a, rselect_fortune_file fortune_files weights rand_limit = some a ∧
      a ∈ fortune_files := by
  apply rselect_go_mem
  · omega
  · omega
  · omega

/-- C10 witness: two files with weights `[1, 2]` and drawn value 2. -/
theorem c10_witness :
    ∃ a, rselect_fortune_file [['f'], ['g']] [1, 2] 2 = some a ∧
      a ∈ [['f'], ['g']] :=
  c10_rselect_returns_member [['f'], ['g']] [1, 2] 2 (by decide) (by decide)
    (by decide)

end Fortudon
